import Mathlib

/-!
Shallow embedding of the core of `streamlit_app.py` (billing reconciliation):
the code/name normalizers, the billing-code decomposer, the two record
extractors (personal log, facility report) and the reconciler, together with
theorems settling the specification claims.

Python strings are modelled as lists of Unicode codepoints (`List Nat`);
`lit` converts a Lean string literal to this representation.  Spreadsheet
cells are modelled by the `Cell` type below.
-/

namespace Billing

/-- Python strings, modelled as lists of Unicode codepoints. -/
abbrev PyStr := List Nat

/-- Convert a Lean string literal to the codepoint-list model. -/
def lit (s : String) : PyStr := s.toList.map Char.toNat

/-- Python whitespace (`str.strip` default set / regex class for spaces),
restricted to the ASCII whitespace characters. -/
def pySpace (c : Nat) : Bool :=
  decide (c = 9 ∨ c = 10 ∨ c = 11 ∨ c = 12 ∨ c = 13 ∨ c = 32)

/-- `str.upper` on one character (ASCII letters, as in the source's codes). -/
def upC (c : Nat) : Nat := if 97 ≤ c ∧ c ≤ 122 then c - 32 else c

/-- `str.upper` over a whole string. -/
def upperL (l : PyStr) : PyStr := l.map upC

/-- Drop trailing whitespace (the right half of `str.strip`). -/
def dropEndWS : PyStr → PyStr
  | [] => []
  | c :: rest =>
    let r := dropEndWS rest
    if r = [] ∧ pySpace c then [] else c :: r

/-- `str.strip`: remove leading and trailing whitespace. -/
def stripL (l : PyStr) : PyStr := dropEndWS (l.dropWhile pySpace)

/-- Dropping a prefix cannot lengthen a list. -/
theorem dropWhile_len_le (p : Nat → Bool) (l : PyStr) :
    (l.dropWhile p).length ≤ l.length := by
  induction l with
  | nil => simp
  | cons c rest ih =>
    by_cases h : p c
    · simp only [List.dropWhile_cons, h, if_true]
      exact Nat.le_succ_of_le ih
    · simp [List.dropWhile_cons, h]

/-- The regex substitution `\s+ -> " "`: collapse each maximal whitespace run
to a single space.  Written with structural recursion (a whitespace character
is kept as one space only when the next character does not continue the run)
so that concrete inputs evaluate inside the kernel; the run-at-a-time
unfoldings are proved below as `collapseWS_cons_ws` and `collapseWS_cons_nws`. -/
def collapseWS : PyStr → PyStr
  | [] => []
  | c :: rest =>
    let r := collapseWS rest
    if pySpace c then
      match rest with
      | [] => [32]
      | d :: _ => if pySpace d then r else 32 :: r
    else c :: r

/-- The regex substitution removing one leading `([A-Z])` marker together with
the whitespace following it (pattern `^\([A-Z]\)\s*`). -/
def stripParen (l : PyStr) : PyStr :=
  match l with
  | 40 :: c :: 41 :: rest => if 65 ≤ c ∧ c ≤ 90 then rest.dropWhile pySpace else l
  | _ => l

/-- `normalize_code` from the source: strip, uppercase, collapse whitespace
runs to a single space. -/
def normalize_code (code : PyStr) : PyStr := collapseWS (upperL (stripL code))

/-- `normalize_name` from the source: strip, uppercase, remove one leading
parenthesized single-letter marker, delete commas, collapse whitespace. -/
def normalize_name (name : PyStr) : PyStr :=
  collapseWS ((stripParen (upperL (stripL name))).filter (fun c => c ≠ 44))

/-- Fueled decimal rendering: peel the least significant digit onto the
accumulator until the number is a single digit.  The fuel argument (the
number itself, an upper bound on the digit count) makes the recursion
structural, hence kernel-reducible. -/
def natDigsAux : Nat → Nat → PyStr → PyStr
  | 0, n, acc => (48 + n % 10) :: acc
  | fuel + 1, n, acc =>
    if n < 10 then (48 + n) :: acc else natDigsAux fuel (n / 10) ((48 + n % 10) :: acc)

/-- Decimal digits of a natural number, as codepoints (`str` on a Nat). -/
def natDigs (n : Nat) : PyStr := natDigsAux n n []

/-- Python `str` on an integer. -/
def intStr (i : Int) : PyStr :=
  if i < 0 then 45 :: natDigs i.natAbs else natDigs i.toNat

/-- Left-pad a number to two digits (used only in the date representation). -/
def pad2 (n : Nat) : PyStr := if n < 10 then 48 :: natDigs n else natDigs n

/-- Python `str` on a native date value, `YYYY-MM-DD`. -/
def dateRepr (d m y : Nat) : PyStr := natDigs y ++ [45] ++ pad2 m ++ [45] ++ pad2 d

/-- A spreadsheet cell as seen by the extractors after decoding: blank
(NaN/None), text, integer, float, or a native date.  A float is modelled by
its toward-zero integer part together with its fractional digit string (the
file's numeric cells are nonnegative decimals; the sign of a float strictly
between -1 and 0 is not represented). -/
inductive Cell where
  | blank
  | str (s : PyStr)
  | int (n : Int)
  | float (trunc : Int) (frac : PyStr)
  | date (d m y : Nat)
deriving DecidableEq, Repr

/-- Whether a float literal denotes the value zero. -/
def floatZero (t : Int) (f : PyStr) : Bool := t = 0 ∧ f.all (fun c => c = 48)

/-- Python truthiness of a cell value (a blank cell reads as `None`). -/
def pyTruthy : Cell → Bool
  | .blank => false
  | .str s => ¬s.isEmpty
  | .int n => n ≠ 0
  | .float t f => ¬floatZero t f
  | .date _ _ _ => true

/-- Python `str` on a cell value. -/
def pyStrC : Cell → PyStr
  | .blank => lit "None"
  | .str s => s
  | .int n => intStr n
  | .float t f => intStr t ++ [46] ++ f
  | .date d m y => dateRepr d m y

/-- File-number canonicalization of the personal-log extractor:
`str(int(x))` for floats, `str(x)` otherwise. -/
def dossierStrC : Cell → PyStr
  | .float t _ => intStr t
  | c => pyStrC c

/-- Cell access `row.iloc[i]` guarded by the length/notna checks: out of
range or NaN reads as blank. -/
def cellv (row : List Cell) (i : Nat) : Cell := row.getD i .blank

/-- Python's substring test `needle in hay`. -/
def infixOf (n : PyStr) : PyStr → Bool
  | [] => n.isPrefixOf []
  | c :: rest => n.isPrefixOf (c :: rest) || infixOf n rest

/-- `parse_billing_code` from the source: uppercase the stripped cell text and
run the seven independent marker tests, appending the matching atomic codes in
the source's order. -/
def parse_billing_code (code_str : PyStr) : List PyStr :=
  let c := upperL (stripL code_str)
  (if infixOf (lit "M24") c then [lit "M 24"] else [])
    ++ (if infixOf (lit "M6") c || infixOf (lit "M 6") c then [lit "M 6"] else [])
    ++ (if infixOf (lit "K-1") c then [lit "K-1"] else [])
    ++ (if infixOf (lit "RECOND") c then [lit "RECOND"] else [])
    ++ (if infixOf (lit "K3/4") c then [lit "K3/4"] else [])
    ++ (if infixOf (lit "K20") c then [lit "K 20"] else [])
    ++ (if infixOf (lit "K15") c then [lit "K 15"] else [])

/-- A canonical billing record as built by both extractors. -/
structure Rec where
  date : Nat
  dossier : PyStr
  nom : PyStr
  code : PyStr
  source : PyStr
deriving DecidableEq, Repr

/-- A decimal digit codepoint. -/
def pyDigit (c : Nat) : Bool := decide (48 ≤ c ∧ c ≤ 57)

/-- Numeric value of a digit codepoint. -/
def digVal (c : Nat) : Nat := c - 48

/-- A date separator, `/` or `-`. -/
def isSep (c : Nat) : Bool := decide (c = 47 ∨ c = 45)

/-- Match `(\d{1,2})[/\-]` at the front of the text, returning the number and
the remaining text.  The two-digit reading applies exactly when a separator
follows it, so the regex's backtracking is deterministic here. -/
def matchNumSep (l : PyStr) : Option (Nat × PyStr) :=
  match l with
  | a :: b :: s :: rest =>
    if pyDigit a ∧ pyDigit b ∧ isSep s then some (digVal a * 10 + digVal b, rest)
    else if pyDigit a ∧ isSep b then some (digVal a, s :: rest)
    else none
  | [a, b] => if pyDigit a ∧ isSep b then some (digVal a, []) else none
  | _ => none

/-- Match `\d{4}` at the front of the text. -/
def matchYear4 (l : PyStr) : Bool :=
  match l with
  | a :: b :: c :: d :: _ => pyDigit a && pyDigit b && pyDigit c && pyDigit d
  | _ => false

/-- The date regex `^(\d{1,2})[/\-](\d{1,2})[/\-](\d{4})` of the personal-log
extractor, returning `int(group(1))` (the day) when the prefix matches. -/
def dateRegexDay (l : PyStr) : Option Nat :=
  match matchNumSep l with
  | none => none
  | some (day, rest) =>
    match matchNumSep rest with
    | none => none
    | some (_, rest2) => if matchYear4 rest2 then some day else none

/-- The date-state update of the personal-log extractor: a truthy cell that is
a native date or a string with a matching date prefix sets the current day;
every other cell keeps it. -/
def pmbDate (cur : Option Nat) (c : Cell) : Option Nat :=
  if pyTruthy c then
    match c with
    | .date d _ _ => some d
    | .str s =>
      match dateRegexDay s with
      | some d => some d
      | none => cur
    | _ => cur
  else cur

/-- Python truthiness of the `current_date` variable (`None` or an int). -/
def curTruthy : Option Nat → Bool
  | none => false
  | some n => n ≠ 0

/-- Loop state of `parse_my_billing`: the carry-forward day and the records
emitted so far. -/
structure PMB where
  current : Option Nat
  recs : List Rec
deriving Repr

/-- One loop iteration of `parse_my_billing`: update the carry-forward day
from column 0, then, if the dossier/name/code cells and the day are all
truthy, emit one record per decomposed code. -/
def pmbStep (st : PMB) (row : List Cell) : PMB :=
  let current := pmbDate st.current (cellv row 0)
  let dossier := cellv row 1
  let nom := cellv row 2
  let codes_str := cellv row 3
  if pyTruthy dossier && pyTruthy nom && pyTruthy codes_str && curTruthy current then
    { current := current,
      recs := st.recs ++ (parse_billing_code (pyStrC codes_str)).map (fun code =>
        { date := current.getD 0, dossier := dossierStrC dossier,
          nom := normalize_name (pyStrC nom), code := normalize_code code,
          source := lit "MA_FACTURATION" }) }
  else { current := current, recs := st.recs }

/-- `parse_my_billing` from the source (over the already-decoded table). -/
def parse_my_billing (table : List (List Cell)) : List Rec :=
  (table.foldl pmbStep { current := none, recs := [] }).recs

/-- Header labels recognized in column 0 of the facility report. -/
def nameHeaders : List PyStr := [lit "PATIENT", lit "NOM", lit "NOM PATIENT"]

/-- Header labels recognized in column 1 of the facility report. -/
def dossierHeaders : List PyStr :=
  [lit "DOSSIER", lit "N° DOSSIER", lit "NUMERO DOSSIER", lit "N°DOSSIER"]

/-- Header labels recognized in column 2 of the facility report. -/
def codeHeaders : List PyStr := [lit "CODE", lit "CODE INTERNE", lit "CODES"]

/-- One header test: the cell is truthy and its stripped uppercased text is
one of the given labels. -/
def isHeaderIn (c : Cell) (labels : List PyStr) : Bool :=
  pyTruthy c && labels.contains (upperL (stripL (pyStrC c)))

/-- The three header checks of the facility-report loop (each `continue`). -/
def hrHeaderRow (row : List Cell) : Bool :=
  isHeaderIn (cellv row 0) nameHeaders || isHeaderIn (cellv row 1) dossierHeaders
    || isHeaderIn (cellv row 2) codeHeaders

/-- The facility-report assignment to `current_dossier`: canonicalized text
for a truthy cell (floats through `str(int(.))`), `None` otherwise. -/
def hrDossier (c : Cell) : Option PyStr :=
  if pyTruthy c then
    some (match c with
      | .float t _ => intStr t
      | c' => pyStrC c')
  else none

/-- Python truthiness of the `current_dossier` variable. -/
def optTruthy : Option PyStr → Bool
  | none => false
  | some s => ¬s.isEmpty

/-- Loop state of `parse_hospital_report`. -/
structure HRB where
  current_name : Option PyStr
  current_dossier : Option PyStr
  recs : List Rec
deriving Repr

/-- The day-column scan of one facility-report row: one record per day column
(index `6 + day - 1`) that exists and holds a non-blank, non-whitespace cell. -/
def hrDays (row : List Cell) (dossier nom code : PyStr) : List Rec :=
  ((List.range 31).map (fun i => i + 1)).filterMap (fun day =>
    if 6 + (day - 1) < row.length ∧ cellv row (6 + (day - 1)) ≠ Cell.blank
        ∧ stripL (pyStrC (cellv row (6 + (day - 1)))) ≠ [] then
      some { date := day, dossier := dossier, nom := nom, code := code,
             source := lit "RAPPORT_HOPITAL" }
    else none)

/-- One loop iteration of `parse_hospital_report`: skip header rows; on a
truthy column 0 set both carry-forward fields (`current_dossier` is `None`
again when column 1 is not truthy); then, when `current_dossier` and the code
cell are truthy, emit the day-column records.  `current_dossier` is only ever
set together with `current_name`, so the `getD []` defaults are unreachable. -/
def hrStep (st : HRB) (row : List Cell) : HRB :=
  let nom_val := cellv row 0
  let dossier_val := cellv row 1
  let code_val := cellv row 2
  if hrHeaderRow row then st
  else
    let st1 :=
      if pyTruthy nom_val then
        { st with current_name := some (normalize_name (pyStrC nom_val)),
                  current_dossier := hrDossier dossier_val }
      else st
    if optTruthy st1.current_dossier && pyTruthy code_val then
      let newRecs := hrDays row (st1.current_dossier.getD []) (st1.current_name.getD [])
        (normalize_code (pyStrC code_val))
      { st1 with recs := st1.recs ++ newRecs }
    else st1

/-- `parse_hospital_report` from the source (over the already-decoded table). -/
def parse_hospital_report (table : List (List Cell)) : List Rec :=
  (table.foldl hrStep { current_name := none, current_dossier := none, recs := [] }).recs

/-- The reconciliation key `(dossier, code, date)` of `make_key`. -/
abbrev RKey := PyStr × PyStr × Nat

/-- `make_key` from the source. -/
def make_key (r : Rec) : RKey := (r.dossier, r.code, r.date)

/-- Insert-or-overwrite into an insertion-ordered association list, the
behavior of a Python dict assignment. -/
def dinsert (m : List (RKey × Rec)) (k : RKey) (r : Rec) : List (RKey × Rec) :=
  match m with
  | [] => [(k, r)]
  | p :: rest => if p.1 = k then (k, r) :: rest else p :: dinsert rest k r

/-- Python dict lookup. -/
def dlookup (m : List (RKey × Rec)) (k : RKey) : Option Rec :=
  match m with
  | [] => none
  | p :: rest => if p.1 = k then some p.2 else dlookup rest k

/-- The dict comprehension over one side's records (last write wins on
duplicate keys). -/
def buildDict (l : List Rec) : List (RKey × Rec) :=
  l.foldl (fun m r => dinsert m (make_key r) r) []

/-- `compare_records` from the source: index both sides by key and partition
into matched / only-mine / only-hospital. -/
def compare_records (my_records hospital_records : List Rec) :
    List Rec × List Rec × List Rec :=
  let my_keys := buildDict my_records
  let hosp_keys := buildDict hospital_records
  let matched := (my_keys.filter (fun p => (dlookup hosp_keys p.1).isSome)).map Prod.snd
  let only_in_my := (my_keys.filter (fun p => !(dlookup hosp_keys p.1).isSome)).map Prod.snd
  let only_in_hospital :=
    (hosp_keys.filter (fun p => !(dlookup my_keys p.1).isSome)).map Prod.snd
  (matched, only_in_my, only_in_hospital)

/-! ### Normalizer lemmas -/

/-- Uppercasing does not change whether a character is whitespace. -/
theorem pySpace_upC (c : Nat) : pySpace (upC c) = pySpace c := by
  unfold upC pySpace
  split_ifs with h
  · simp only [decide_eq_decide]; omega
  · rfl

/-- Uppercasing one character is idempotent. -/
theorem upC_idem (c : Nat) : upC (upC c) = upC c := by
  unfold upC; split_ifs <;> omega

/-- The first character, if any, is not whitespace. -/
def noLeadWS : PyStr → Prop
  | [] => True
  | c :: _ => pySpace c = false

/-- The last character, if any, is not whitespace. -/
def noTrailWS (l : PyStr) : Prop :=
  match l.getLast? with
  | none => True
  | some c => pySpace c = false

/-- Dropping leading whitespace leaves no leading whitespace. -/
theorem noLeadWS_dropWhile (l : PyStr) : noLeadWS (l.dropWhile pySpace) := by
  induction l with
  | nil => trivial
  | cons c rest ih =>
    by_cases h : pySpace c
    · simpa [List.dropWhile_cons, h] using ih
    · simpa [List.dropWhile_cons, h, noLeadWS] using h

/-- Membership survives `dropWhile`. -/
theorem mem_of_dropWhile (p : Nat → Bool) (l : PyStr) (c : Nat)
    (h : c ∈ l.dropWhile p) : c ∈ l := by
  induction l with
  | nil => simpa using h
  | cons d rest ih =>
    by_cases hd : p d
    · rw [List.dropWhile_cons, if_pos hd] at h
      exact List.mem_cons_of_mem d (ih h)
    · rwa [List.dropWhile_cons, if_neg hd] at h

/-- One unfolding step of `dropEndWS` on a cons cell. -/
theorem dropEndWS_cons (c : Nat) (rest : PyStr) :
    dropEndWS (c :: rest) =
      if dropEndWS rest = [] ∧ pySpace c then [] else c :: dropEndWS rest := rfl

/-- Dropping trailing whitespace leaves no trailing whitespace. -/
theorem noTrailWS_dropEndWS (l : PyStr) : noTrailWS (dropEndWS l) := by
  induction l with
  | nil => trivial
  | cons c rest ih =>
    rw [dropEndWS_cons]
    split_ifs with h
    · trivial
    · rcases hr : dropEndWS rest with _ | ⟨d, rest'⟩
      · have hc : pySpace c = false := by
          cases hgc : pySpace c
          · rfl
          · exact absurd ⟨hr, hgc⟩ h
        simpa [noTrailWS] using hc
      · have := ih
        rw [hr] at this
        simpa [noTrailWS, List.getLast?_cons_cons] using this

/-- Dropping trailing whitespace keeps the head character when any remains. -/
theorem noLeadWS_dropEndWS (l : PyStr) (h : noLeadWS l) : noLeadWS (dropEndWS l) := by
  cases l with
  | nil => trivial
  | cons c rest =>
    have hc : pySpace c = false := h
    rw [dropEndWS_cons]
    split_ifs with h'
    · trivial
    · exact hc

/-- A string with no leading whitespace is unchanged by `dropWhile`. -/
theorem dropWhile_eq_self_of_noLeadWS (l : PyStr) (h : noLeadWS l) :
    l.dropWhile pySpace = l := by
  cases l with
  | nil => rfl
  | cons c rest =>
    have hc : pySpace c = false := h
    simp [List.dropWhile_cons, hc]

/-- A string with no trailing whitespace is unchanged by `dropEndWS`. -/
theorem dropEndWS_eq_self_of_noTrailWS (l : PyStr) (h : noTrailWS l) :
    dropEndWS l = l := by
  induction l with
  | nil => rfl
  | cons c rest ih =>
    cases rest with
    | nil =>
      have hc : pySpace c = false := by simpa [noTrailWS] using h
      simp [dropEndWS, hc]
    | cons d rest' =>
      have ht : noTrailWS (d :: rest') := by
        simpa [noTrailWS, List.getLast?_cons_cons] using h
      have hrw := ih ht
      rw [dropEndWS_cons, hrw]
      simp

/-- A string both stripped of leading and trailing whitespace is unchanged by
`stripL`. -/
theorem stripL_eq_self (l : PyStr) (h1 : noLeadWS l) (h2 : noTrailWS l) :
    stripL l = l := by
  unfold stripL
  rw [dropWhile_eq_self_of_noLeadWS l h1, dropEndWS_eq_self_of_noTrailWS l h2]

/-- The result of `stripL` has no leading whitespace. -/
theorem noLeadWS_stripL (l : PyStr) : noLeadWS (stripL l) :=
  noLeadWS_dropEndWS _ (noLeadWS_dropWhile l)

/-- The result of `stripL` has no trailing whitespace. -/
theorem noTrailWS_stripL (l : PyStr) : noTrailWS (stripL l) :=
  noTrailWS_dropEndWS _

/-- Uppercasing preserves the absence of leading whitespace. -/
theorem noLeadWS_upperL (l : PyStr) (h : noLeadWS l) : noLeadWS (upperL l) := by
  cases l with
  | nil => trivial
  | cons c rest =>
    have hc : pySpace c = false := h
    show pySpace (upC c) = false
    rw [pySpace_upC]; exact hc

/-- The last element of a mapped list is the image of the last element. -/
theorem getLast?_of_map (f : Nat → Nat) (l : PyStr) :
    (l.map f).getLast? = l.getLast?.map f := by
  induction l with
  | nil => rfl
  | cons c rest ih =>
    cases rest with
    | nil => rfl
    | cons d rest' =>
      rw [List.map_cons, List.map_cons, List.getLast?_cons_cons,
        List.getLast?_cons_cons, ← List.map_cons]
      exact ih

/-- Uppercasing preserves the absence of trailing whitespace. -/
theorem noTrailWS_upperL (l : PyStr) (h : noTrailWS l) : noTrailWS (upperL l) := by
  unfold noTrailWS at *
  rw [upperL, getLast?_of_map]
  rcases hl : l.getLast? with _ | c
  · simp
  · rw [hl] at h
    simpa [pySpace_upC] using h

/-- `collapseWS` on the empty string. -/
theorem collapseWS_nil : collapseWS [] = [] := rfl

/-- One unfolding of `collapseWS` on a leading non-whitespace character. -/
theorem collapseWS_cons_nws (c : Nat) (rest : PyStr) (hc : pySpace c = false) :
    collapseWS (c :: rest) = c :: collapseWS rest := by
  cases rest with
  | nil => simp [collapseWS, hc]
  | cons d rest' => simp [collapseWS, hc]

/-- One unfolding of `collapseWS` on a leading whitespace character: the whole
run collapses to a single space. -/
theorem collapseWS_cons_ws : ∀ (rest : PyStr) (c : Nat), pySpace c = true →
    collapseWS (c :: rest) = 32 :: collapseWS (rest.dropWhile pySpace) := by
  intro rest
  induction rest with
  | nil => intro c hc; simp [collapseWS, hc]
  | cons d rest' ih =>
    intro c hc
    by_cases hd : pySpace d
    · have h1 : collapseWS (c :: d :: rest') = collapseWS (d :: rest') := by
        simp [collapseWS, hc, hd]
      rw [h1, List.dropWhile_cons, if_pos hd, ih d hd]
    · have hdf : pySpace d = false := by
        cases hgd : pySpace d
        · rfl
        · exact absurd hgd hd
      have h1 : collapseWS (c :: d :: rest') = 32 :: collapseWS (d :: rest') := by
        simp [collapseWS, hc, hdf]
      rw [h1, List.dropWhile_cons, if_neg hd]

/-- Run-structured induction principle matching the whitespace-run view of
`collapseWS`. -/
theorem collapse_induction (P : PyStr → Prop) (hnil : P [])
    (hws : ∀ c rest, pySpace c = true → P (rest.dropWhile pySpace) → P (c :: rest))
    (hnws : ∀ c rest, pySpace c = false → P rest → P (c :: rest)) :
    ∀ l, P l := by
  have key : ∀ (n : Nat) (l : PyStr), l.length ≤ n → P l := by
    intro n
    induction n with
    | zero =>
      intro l hl
      rw [List.length_eq_zero.mp (Nat.le_zero.mp hl)]
      exact hnil
    | succ n ih =>
      intro l hl
      cases l with
      | nil => exact hnil
      | cons c rest =>
        have hr : rest.length ≤ n := by
          simp only [List.length_cons] at hl
          omega
        cases hc : pySpace c
        · exact hnws c rest hc (ih rest hr)
        · exact hws c rest hc
            (ih (rest.dropWhile pySpace) (Nat.le_trans (dropWhile_len_le pySpace rest) hr))
  exact fun l => key l.length l (Nat.le_refl _)

/-- Collapsing whitespace preserves the absence of leading whitespace. -/
theorem noLeadWS_collapseWS (l : PyStr) (h : noLeadWS l) : noLeadWS (collapseWS l) := by
  cases l with
  | nil => rw [collapseWS_nil]; trivial
  | cons c rest =>
    have hc : pySpace c = false := h
    rw [collapseWS_cons_nws c rest hc]
    exact hc

/-- Collapsing whitespace sends nonempty strings to nonempty strings. -/
theorem collapseWS_ne_nil (l : PyStr) (h : l ≠ []) : collapseWS l ≠ [] := by
  cases l with
  | nil => exact absurd rfl h
  | cons c rest =>
    cases hc : pySpace c
    · rw [collapseWS_cons_nws c rest hc]; simp
    · rw [collapseWS_cons_ws rest c hc]; simp

/-- Dropping leading whitespace keeps the last character when any remains. -/
theorem getLast?_dropWhile (l : PyStr) (h : l.dropWhile pySpace ≠ []) :
    (l.dropWhile pySpace).getLast? = l.getLast? := by
  induction l with
  | nil => rfl
  | cons c rest ih =>
    by_cases hc : pySpace c
    · rw [List.dropWhile_cons, if_pos hc] at h ⊢
      have hrest : rest ≠ [] := by
        intro he; rw [he] at h; exact h rfl
      rcases hr : rest with _ | ⟨d, rest'⟩
      · exact absurd hr hrest
      · rw [← hr, ih h, hr, List.getLast?_cons_cons]
    · rw [List.dropWhile_cons, if_neg hc]

/-- A nonempty string whose characters are all whitespace has a whitespace
last character, contradicting `noTrailWS`; hence its `dropWhile` is nonempty. -/
theorem dropWhile_ne_nil_of_noTrailWS (d : Nat) (rest' : PyStr)
    (ht : noTrailWS (d :: rest')) : (d :: rest').dropWhile pySpace ≠ [] := by
  intro he
  have hall := List.dropWhile_eq_nil_iff.mp he
  have hne : (d :: rest') ≠ ([] : PyStr) := by simp
  have hx := List.getLast?_eq_getLast_of_ne_nil hne
  unfold noTrailWS at ht
  rw [hx] at ht
  have hmem := List.getLast_mem hne
  have hws := hall _ hmem
  rw [ht] at hws
  exact Bool.false_ne_true hws

/-- Collapsing whitespace preserves the absence of trailing whitespace. -/
theorem noTrailWS_collapseWS (l : PyStr) (h : noTrailWS l) : noTrailWS (collapseWS l) := by
  induction l using collapse_induction with
  | hnil => rw [collapseWS_nil]; trivial
  | hws c rest hc ih =>
    rw [collapseWS_cons_ws rest c hc]
    cases rest with
    | nil =>
      have hcf : pySpace c = false := by simpa [noTrailWS] using h
      rw [hc] at hcf
      simp at hcf
    | cons d rest' =>
      have ht : noTrailWS (d :: rest') := by
        simpa [noTrailWS, List.getLast?_cons_cons] using h
      have hdw := dropWhile_ne_nil_of_noTrailWS d rest' ht
      have ht' : noTrailWS ((d :: rest').dropWhile pySpace) := by
        unfold noTrailWS
        rw [getLast?_dropWhile _ hdw]
        exact ht
      have hres := ih ht'
      have hne := collapseWS_ne_nil _ hdw
      unfold noTrailWS at hres ⊢
      rcases hg : collapseWS ((d :: rest').dropWhile pySpace) with _ | ⟨e, tl⟩
      · exact absurd hg hne
      · rw [hg] at hres
        rw [List.getLast?_cons_cons]
        exact hres
  | hnws c rest hc ih =>
    rw [collapseWS_cons_nws c rest hc]
    cases rest with
    | nil =>
      rw [collapseWS_nil]
      simpa [noTrailWS] using hc
    | cons d rest' =>
      have ht : noTrailWS (d :: rest') := by
        simpa [noTrailWS, List.getLast?_cons_cons] using h
      have hres := ih ht
      have hne := collapseWS_ne_nil (d :: rest') (by simp)
      unfold noTrailWS at hres ⊢
      rcases hg : collapseWS (d :: rest') with _ | ⟨e, tl⟩
      · exact absurd hg hne
      · rw [hg] at hres
        rw [List.getLast?_cons_cons]
        exact hres

/-- Every character of a collapsed string is a space or came from the input. -/
theorem mem_collapseWS (l : PyStr) (c : Nat) (h : c ∈ collapseWS l) :
    c = 32 ∨ c ∈ l := by
  induction l using collapse_induction with
  | hnil => rw [collapseWS_nil] at h; simp at h
  | hws d rest hd ih =>
    rw [collapseWS_cons_ws rest d hd] at h
    rcases List.mem_cons.mp h with h' | h'
    · exact Or.inl h'
    · rcases ih h' with h'' | h''
      · exact Or.inl h''
      · exact Or.inr (List.mem_cons_of_mem d (mem_of_dropWhile pySpace rest c h''))
  | hnws d rest hd ih =>
    rw [collapseWS_cons_nws d rest hd] at h
    rcases List.mem_cons.mp h with h' | h'
    · exact Or.inr (h' ▸ List.mem_cons_self d rest)
    · rcases ih h' with h'' | h''
      · exact Or.inl h''
      · exact Or.inr (List.mem_cons_of_mem d h'')

/-- Collapsing whitespace runs is idempotent. -/
theorem collapseWS_idem (l : PyStr) : collapseWS (collapseWS l) = collapseWS l := by
  induction l using collapse_induction with
  | hnil => rw [collapseWS_nil, collapseWS_nil]
  | hws c rest hc ih =>
    rw [collapseWS_cons_ws rest c hc]
    rw [collapseWS_cons_ws _ 32 (by decide)]
    have hnl : noLeadWS (collapseWS (rest.dropWhile pySpace)) :=
      noLeadWS_collapseWS _ (noLeadWS_dropWhile rest)
    rw [dropWhile_eq_self_of_noLeadWS _ hnl, ih]
  | hnws c rest hc ih =>
    rw [collapseWS_cons_nws c rest hc, collapseWS_cons_nws c _ hc, ih]

/-- A string of uppercased characters is unchanged by `upperL`. -/
theorem upperL_eq_self (l : PyStr) (h : ∀ c ∈ l, upC c = c) : upperL l = l := by
  induction l with
  | nil => rfl
  | cons c rest ih =>
    rw [upperL, List.map_cons, h c (List.mem_cons_self c rest)]
    have := ih (fun d hd => h d (List.mem_cons_of_mem c hd))
    rw [upperL] at this
    rw [this]

/-- Every character of a normalized code is fixed by uppercasing. -/
theorem normalize_code_upper_fixed (l : PyStr) (c : Nat) (h : c ∈ normalize_code l) :
    upC c = c := by
  rcases mem_collapseWS _ _ h with h' | h'
  · rw [h']; decide
  · rcases List.mem_map.mp h' with ⟨d, _, hd⟩
    rw [← hd]; exact upC_idem d

/-- `normalize_code` is idempotent. -/
theorem normalize_code_idem (l : PyStr) :
    normalize_code (normalize_code l) = normalize_code l := by
  have h1 : noLeadWS (normalize_code l) :=
    noLeadWS_collapseWS _ (noLeadWS_upperL _ (noLeadWS_stripL l))
  have h2 : noTrailWS (normalize_code l) :=
    noTrailWS_collapseWS _ (noTrailWS_upperL _ (noTrailWS_stripL l))
  show collapseWS (upperL (stripL (normalize_code l))) = normalize_code l
  rw [stripL_eq_self _ h1 h2, upperL_eq_self _ (normalize_code_upper_fixed l)]
  show collapseWS (collapseWS (upperL (stripL l))) = normalize_code l
  rw [collapseWS_idem]
  rfl

/-! ### Whitespace-only inputs -/

/-- Stripping an all-whitespace string yields the empty string. -/
theorem stripL_eq_nil_of_ws (l : PyStr) (h : ∀ c ∈ l, pySpace c = true) :
    stripL l = [] := by
  unfold stripL
  rw [List.dropWhile_eq_nil_iff.mpr h]
  rfl

/-- Both normalizers send all-whitespace (in particular empty) strings to the
empty string. -/
theorem normalizers_ws_only (l : PyStr) (h : ∀ c ∈ l, pySpace c = true) :
    normalize_code l = [] ∧ normalize_name l = [] := by
  constructor
  · show collapseWS (upperL (stripL l)) = []
    rw [stripL_eq_nil_of_ws l h]
    exact collapseWS_nil
  · show collapseWS ((stripParen (upperL (stripL l))).filter (fun c => c ≠ 44)) = []
    rw [stripL_eq_nil_of_ws l h]
    exact collapseWS_nil

/-! ### Code decomposition -/

/-- Membership in a one-element conditional list. -/
theorem mem_if_single (p : Prop) [Decidable p] (x c : PyStr) :
    (c ∈ if p then [x] else []) ↔ (c = x ∧ p) := by
  split_ifs with h <;> simp [h]

/-- Modelled from the spec's words (section 4.2 / claim C2): the atomic code
`code` is due in the output exactly when one of its markers occurs as a
substring of the trimmed, uppercased input. -/
abbrev specCodeDue (s code : PyStr) : Prop :=
  let t := upperL (stripL s)
  (code = lit "M 24" ∧ infixOf (lit "M24") t = true)
    ∨ (code = lit "M 6" ∧ (infixOf (lit "M6") t = true ∨ infixOf (lit "M 6") t = true))
    ∨ (code = lit "K-1" ∧ infixOf (lit "K-1") t = true)
    ∨ (code = lit "RECOND" ∧ infixOf (lit "RECOND") t = true)
    ∨ (code = lit "K3/4" ∧ infixOf (lit "K3/4") t = true)
    ∨ (code = lit "K 20" ∧ infixOf (lit "K20") t = true)
    ∨ (code = lit "K 15" ∧ infixOf (lit "K15") t = true)

/-! ### Dictionary (Python dict) lemmas -/

/-- One unfolding step of `dlookup` on a cons cell. -/
theorem dlookup_cons (q : RKey × Rec) (rest : List (RKey × Rec)) (k : RKey) :
    dlookup (q :: rest) k = if q.1 = k then some q.2 else dlookup rest k := rfl

/-- One unfolding step of `dinsert` on a cons cell. -/
theorem dinsert_cons (q : RKey × Rec) (rest : List (RKey × Rec)) (k : RKey) (r : Rec) :
    dinsert (q :: rest) k r = if q.1 = k then (k, r) :: rest else q :: dinsert rest k r := rfl

/-- A key is bound after an insert exactly when it is the inserted key or was
bound before. -/
theorem dlookup_dinsert_isSome (m : List (RKey × Rec)) (k k' : RKey) (r : Rec) :
    (dlookup (dinsert m k' r) k).isSome = true
      ↔ (k = k' ∨ (dlookup m k).isSome = true) := by
  induction m with
  | nil =>
    show (dlookup [(k', r)] k).isSome = true ↔ _
    rw [dlookup_cons]
    by_cases h : k' = k
    · rw [if_pos (show ((k', r)).1 = k from h)]
      exact ⟨fun _ => Or.inl h.symm, fun _ => rfl⟩
    · rw [if_neg (show ¬((k', r)).1 = k from h)]
      constructor
      · intro hh; simp [dlookup] at hh
      · rintro (hh | hh)
        · exact absurd hh.symm h
        · simp [dlookup] at hh
  | cons q rest ih =>
    rw [dinsert_cons]
    by_cases hq : q.1 = k'
    · rw [if_pos hq, dlookup_cons, dlookup_cons]
      by_cases hk : k' = k
      · rw [if_pos (show ((k', r)).1 = k from hk),
          if_pos (show q.1 = k from hq.trans hk)]
        simp [hk.symm]
      · rw [if_neg (show ¬((k', r)).1 = k from hk),
          if_neg (show ¬q.1 = k from fun h2 => hk (hq.symm.trans h2))]
        constructor
        · exact fun h => Or.inr h
        · rintro (h | h)
          · exact absurd h.symm hk
          · exact h
    · rw [if_neg hq, dlookup_cons, dlookup_cons]
      by_cases h2 : q.1 = k
      · rw [if_pos h2, if_pos h2]
        simp
      · rw [if_neg h2, if_neg h2, ih]

/-- Keys bound after folding inserts over a record list: the mapped keys of
the list, or keys already bound. -/
theorem dlookup_foldIns_isSome (l : List Rec) :
    ∀ (m : List (RKey × Rec)) (k : RKey),
      (dlookup (l.foldl (fun m r => dinsert m (make_key r) r) m) k).isSome = true
        ↔ (k ∈ l.map make_key ∨ (dlookup m k).isSome = true) := by
  induction l with
  | nil => intro m k; simp
  | cons r rest ih =>
    intro m k
    rw [List.foldl_cons, ih, dlookup_dinsert_isSome]
    simp only [List.map_cons, List.mem_cons]
    tauto

/-- Keys bound in the dict built by the comprehension are exactly the mapped
keys of the input records. -/
theorem buildDict_isSome (l : List Rec) (k : RKey) :
    (dlookup (buildDict l) k).isSome = true ↔ k ∈ l.map make_key := by
  rw [buildDict, dlookup_foldIns_isSome]
  constructor
  · rintro (h | h)
    · exact h
    · simp [dlookup] at h
  · exact fun h => Or.inl h

/-- Every binding of an insert is the new pair or an old binding. -/
theorem mem_dinsert (m : List (RKey × Rec)) (k : RKey) (r : Rec) (p : RKey × Rec)
    (h : p ∈ dinsert m k r) : p = (k, r) ∨ p ∈ m := by
  induction m with
  | nil => simpa [dinsert] using h
  | cons q rest ih =>
    by_cases hq : q.1 = k
    · rw [dinsert, if_pos hq] at h
      rcases List.mem_cons.mp h with h' | h'
      · exact Or.inl h'
      · exact Or.inr (List.mem_cons_of_mem q h')
    · rw [dinsert, if_neg hq] at h
      rcases List.mem_cons.mp h with h' | h'
      · exact Or.inr (h' ▸ List.mem_cons_self q rest)
      · rcases ih h' with h'' | h''
        · exact Or.inl h''
        · exact Or.inr (List.mem_cons_of_mem q h'')

/-- Every binding after folding inserts pairs some input record with its own
key, or was present initially. -/
theorem mem_foldIns (l : List Rec) :
    ∀ (m : List (RKey × Rec)) (p : RKey × Rec),
      p ∈ l.foldl (fun m r => dinsert m (make_key r) r) m →
        (p.1 = make_key p.2 ∧ p.2 ∈ l) ∨ p ∈ m := by
  induction l with
  | nil => intro m p hp; exact Or.inr hp
  | cons r rest ih =>
    intro m p hp
    rw [List.foldl_cons] at hp
    rcases ih (dinsert m (make_key r) r) p hp with h' | h'
    · exact Or.inl ⟨h'.1, List.mem_cons_of_mem r h'.2⟩
    · rcases mem_dinsert m (make_key r) r p h' with h'' | h''
      · rw [h'']
        exact Or.inl ⟨rfl, List.mem_cons_self r rest⟩
      · exact Or.inr h''

/-- Every binding of the built dict pairs a record of the input list with its
own key. -/
theorem mem_buildDict (l : List Rec) (p : RKey × Rec) (h : p ∈ buildDict l) :
    p.1 = make_key p.2 ∧ p.2 ∈ l := by
  rcases mem_foldIns l [] p h with h' | h'
  · exact h'
  · simp at h'

/-- A bound key has a binding among the dict's pairs. -/
theorem dlookup_isSome_exists (m : List (RKey × Rec)) (k : RKey)
    (h : (dlookup m k).isSome) : ∃ p ∈ m, p.1 = k := by
  induction m with
  | nil => simp [dlookup] at h
  | cons q rest ih =>
    by_cases hq : q.1 = k
    · exact ⟨q, List.mem_cons_self q rest, hq⟩
    · rw [dlookup, if_neg hq] at h
      rcases ih h with ⟨p, hp, hpk⟩
      exact ⟨p, List.mem_cons_of_mem q hp, hpk⟩

/-- A pair's presence in a dict makes its key bound. -/
theorem dlookup_isSome_of_mem (m : List (RKey × Rec)) (p : RKey × Rec) (hp : p ∈ m) :
    (dlookup m p.1).isSome = true := by
  induction m with
  | nil => simp at hp
  | cons q rest ih =>
    by_cases hq : q.1 = p.1
    · rw [dlookup_cons, if_pos hq]; rfl
    · rcases List.mem_cons.mp hp with h' | h'
      · exact absurd (congrArg Prod.fst h'.symm) hq
      · rw [dlookup_cons, if_neg hq]; exact ih h'

/-- Record membership in one partition of `compare_records`. -/
theorem mem_filterpart (m : List (RKey × Rec)) (pred : RKey × Rec → Bool) (r : Rec) :
    r ∈ (m.filter pred).map Prod.snd ↔ ∃ p ∈ m, pred p = true ∧ p.2 = r := by
  simp only [List.mem_map, List.mem_filter]
  constructor
  · rintro ⟨p, ⟨hm, hp⟩, hr⟩
    exact ⟨p, hm, hp, hr⟩
  · rintro ⟨p, hm, hp, hr⟩
    exact ⟨p, ⟨hm, hp⟩, hr⟩

/-- Key membership in one partition of `compare_records`, for dicts whose
bindings carry their own key. -/
theorem mem_filterpart_key (m : List (RKey × Rec)) (pred : RKey × Rec → Bool) (k : RKey)
    (hinv : ∀ p ∈ m, p.1 = make_key p.2) :
    k ∈ ((m.filter pred).map Prod.snd).map make_key ↔
      ∃ p ∈ m, pred p = true ∧ p.1 = k := by
  simp only [List.map_map, List.mem_map, List.mem_filter, Function.comp]
  constructor
  · rintro ⟨p, ⟨hm, hp⟩, hk⟩
    exact ⟨p, hm, hp, (hinv p hm).trans hk⟩
  · rintro ⟨p, hm, hp, hk⟩
    exact ⟨p, ⟨hm, hp⟩, (hinv p hm).symm.trans hk⟩

/-- Matched keys are exactly the keys present on both sides. -/
theorem matched_keys_iff (my hosp : List Rec) (k : RKey) :
    k ∈ ((compare_records my hosp).1.map make_key)
      ↔ (k ∈ my.map make_key ∧ k ∈ hosp.map make_key) := by
  rw [show (compare_records my hosp).1
      = ((buildDict my).filter
          (fun p => (dlookup (buildDict hosp) p.1).isSome)).map Prod.snd from rfl]
  rw [mem_filterpart_key _ _ _ (fun p hp => (mem_buildDict my p hp).1)]
  constructor
  · rintro ⟨p, hm, hp, hk⟩
    refine ⟨?_, ?_⟩
    · rw [← buildDict_isSome]
      rw [← hk]
      exact dlookup_isSome_of_mem _ p hm
    · rw [← buildDict_isSome, ← hk]
      exact hp
  · rintro ⟨h1, h2⟩
    rcases dlookup_isSome_exists (buildDict my) k ((buildDict_isSome my k).mpr h1)
      with ⟨p, hm, hk⟩
    refine ⟨p, hm, ?_, hk⟩
    rw [hk, buildDict_isSome]
    exact h2

/-- Personal-side keys split exactly into matched plus personal-only. -/
theorem my_keys_split (my hosp : List Rec) (k : RKey) :
    (k ∈ ((compare_records my hosp).1.map make_key)
        ∨ k ∈ ((compare_records my hosp).2.1.map make_key))
      ↔ k ∈ my.map make_key := by
  have hinv : ∀ p ∈ buildDict my, p.1 = make_key p.2 :=
    fun p hp => (mem_buildDict my p hp).1
  rw [show (compare_records my hosp).1
      = ((buildDict my).filter
          (fun p => (dlookup (buildDict hosp) p.1).isSome)).map Prod.snd from rfl,
    show (compare_records my hosp).2.1
      = ((buildDict my).filter
          (fun p => !(dlookup (buildDict hosp) p.1).isSome)).map Prod.snd from rfl,
    mem_filterpart_key _ _ _ hinv, mem_filterpart_key _ _ _ hinv]
  constructor
  · rintro (⟨p, hm, _, hk⟩ | ⟨p, hm, _, hk⟩) <;>
      · rw [← buildDict_isSome, ← hk]
        exact dlookup_isSome_of_mem _ p hm
  · intro h
    rcases dlookup_isSome_exists (buildDict my) k ((buildDict_isSome my k).mpr h)
      with ⟨p, hm, hk⟩
    by_cases hb : (dlookup (buildDict hosp) p.1).isSome = true
    · exact Or.inl ⟨p, hm, hb, hk⟩
    · exact Or.inr ⟨p, hm, by simp [hb], hk⟩

/-- Facility-side keys split exactly into matched plus facility-only. -/
theorem hosp_keys_split (my hosp : List Rec) (k : RKey) :
    (k ∈ ((compare_records my hosp).1.map make_key)
        ∨ k ∈ ((compare_records my hosp).2.2.map make_key))
      ↔ k ∈ hosp.map make_key := by
  have hinvh : ∀ p ∈ buildDict hosp, p.1 = make_key p.2 :=
    fun p hp => (mem_buildDict hosp p hp).1
  rw [show (compare_records my hosp).2.2
      = ((buildDict hosp).filter
          (fun p => !(dlookup (buildDict my) p.1).isSome)).map Prod.snd from rfl]
  rw [matched_keys_iff, mem_filterpart_key _ _ _ hinvh]
  constructor
  · rintro (⟨_, h2⟩ | ⟨p, hm, _, hk⟩)
    · exact h2
    · rw [← buildDict_isSome, ← hk]
      exact dlookup_isSome_of_mem _ p hm
  · intro h
    by_cases hb : (dlookup (buildDict my) k).isSome = true
    · exact Or.inl ⟨(buildDict_isSome my k).mp hb, h⟩
    · rcases dlookup_isSome_exists (buildDict hosp) k ((buildDict_isSome hosp k).mpr h)
        with ⟨p, hm, hk⟩
      exact Or.inr ⟨p, hm, by simp [hk ▸ hb], hk⟩

/-! ### Personal-log extractor lemmas -/

/-- A date-like column-0 value in the sense of the spec: a native date, or a
string whose prefix matches the `D[/\-]M[/\-]YYYY` regex. -/
def isDateLike : Cell → Prop
  | Cell.date _ _ _ => True
  | Cell.str s => (dateRegexDay s).isSome = true
  | _ => False

instance (c : Cell) : Decidable (isDateLike c) := by
  unfold isDateLike
  cases c <;> infer_instance

/-- The date regex does not match the empty string. -/
theorem dateRegexDay_nil : dateRegexDay [] = none := rfl

/-- A cell that is not date-like leaves the carry-forward day unchanged. -/
theorem pmbDate_of_not_dateLike (cur : Option Nat) (c : Cell) (h : ¬isDateLike c) :
    pmbDate cur c = cur := by
  cases c with
  | blank => rfl
  | str s =>
    have hre : dateRegexDay s = none := by
      rcases hr : dateRegexDay s with _ | d
      · rfl
      · exact absurd (show isDateLike (Cell.str s) by rw [isDateLike, hr]; rfl) h
    unfold pmbDate
    split_ifs
    · simp [hre]
    · rfl
  | int n => unfold pmbDate; split_ifs <;> rfl
  | float t f => unfold pmbDate; split_ifs <;> rfl
  | date d m y => exact absurd trivial h

/-- A native date cell sets the carry-forward day to its day component. -/
theorem pmbDate_date (cur : Option Nat) (d m y : Nat) :
    pmbDate cur (Cell.date d m y) = some d := rfl

/-- A string cell matching the date regex sets the carry-forward day to the
matched day group. -/
theorem pmbDate_str (cur : Option Nat) (s : PyStr) (d : Nat)
    (h : dateRegexDay s = some d) : pmbDate cur (Cell.str s) = some d := by
  have hs : s ≠ [] := by
    intro he
    rw [he, dateRegexDay_nil] at h
    exact Option.noConfusion h
  have ht : pyTruthy (Cell.str s) = true := by
    simp [pyTruthy, hs]
  unfold pmbDate
  rw [if_pos ht]
  simp [h]

/-- Records emitted by one personal-log step beyond the accumulator carry the
day of the (updated) carry-forward state, which the step returns. -/
theorem pmbStep_new_recs (st : PMB) (row : List Cell) :
    (pmbStep st row).current = pmbDate st.current (cellv row 0) ∧
    ∀ r ∈ (pmbStep st row).recs,
      r ∈ st.recs ∨ r.date = (pmbDate st.current (cellv row 0)).getD 0 := by
  unfold pmbStep
  dsimp only
  split_ifs with hg
  · refine ⟨rfl, ?_⟩
    intro r hr
    rcases List.mem_append.mp hr with h' | h'
    · exact Or.inl h'
    · rcases List.mem_map.mp h' with ⟨code, _, hc⟩
      exact Or.inr (by rw [← hc])
  · exact ⟨rfl, fun r hr => Or.inl hr⟩

/-- A row with a blank column 0 keeps the carry-forward day. -/
theorem pmbDate_blank (cur : Option Nat) : pmbDate cur Cell.blank = cur := rfl

/-- Folding the personal-log step over rows with blank date cells keeps the
day and stamps every new record with it. -/
theorem pmb_fold_blank (rs : List (List Cell)) :
    ∀ (acc : List Rec) (d : Nat),
      (∀ row ∈ rs, cellv row 0 = Cell.blank) →
      (∀ r ∈ acc, r.date = d) →
      ((rs.foldl pmbStep { current := some d, recs := acc }).current = some d ∧
        ∀ r ∈ (rs.foldl pmbStep { current := some d, recs := acc }).recs, r.date = d) := by
  induction rs with
  | nil => intro acc d _ hacc; exact ⟨rfl, hacc⟩
  | cons row rest ih =>
    intro acc d hrows hacc
    have h0 : cellv row 0 = Cell.blank := hrows row (List.mem_cons_self row rest)
    have hstep := pmbStep_new_recs { current := some d, recs := acc } row
    rw [h0, pmbDate_blank] at hstep
    rw [List.foldl_cons]
    have hstate : pmbStep { current := some d, recs := acc } row
        = { current := some d, recs := (pmbStep { current := some d, recs := acc } row).recs } := by
      cases hs : pmbStep { current := some d, recs := acc } row with
      | mk cur recs =>
        have := hstep.1
        rw [hs] at this
        simp at this
        rw [this]
    rw [hstate]
    exact ih _ d (fun r hr => hrows r (List.mem_cons_of_mem row hr))
      (fun r hr => by
        rcases hstep.2 r hr with h' | h'
        · exact hacc r h'
        · simpa using h')

/-- A table whose column-0 cells are never date-like yields no records. -/
theorem pmb_fold_nodate (t : List (List Cell)) (h : ∀ row ∈ t, ¬isDateLike (cellv row 0)) :
    ∀ (acc : List Rec),
      t.foldl pmbStep { current := none, recs := acc } = { current := none, recs := acc } := by
  induction t with
  | nil => intro acc; rfl
  | cons row rest ih =>
    intro acc
    have h0 : pmbDate none (cellv row 0) = none :=
      pmbDate_of_not_dateLike none _ (h row (List.mem_cons_self row rest))
    have hstep : pmbStep { current := none, recs := acc } row = { current := none, recs := acc } := by
      unfold pmbStep
      dsimp only
      rw [h0]
      have : curTruthy none = false := rfl
      split_ifs with hg
      · rw [this] at hg; simp at hg
      · rfl
    rw [List.foldl_cons, hstep]
    exact ih (fun r hr => h r (List.mem_cons_of_mem row hr)) acc

/-! ### Decomposer membership and vocabulary -/

/-- Membership in the decomposer's output is exactly the marker condition of
the spec. -/
theorem pbc_mem_iff (s code : PyStr) :
    code ∈ parse_billing_code s ↔ specCodeDue s code := by
  unfold parse_billing_code specCodeDue
  simp only [List.mem_append, mem_if_single, Bool.or_eq_true, or_assoc]

/-- The seven atomic codes of the fixed vocabulary. -/
def codeVocab : List PyStr :=
  [lit "M 24", lit "M 6", lit "K-1", lit "RECOND", lit "K3/4", lit "K 20", lit "K 15"]

/-- Every decomposed code belongs to the fixed vocabulary. -/
theorem pbc_mem_vocab (s code : PyStr) (h : code ∈ parse_billing_code s) :
    code ∈ codeVocab := by
  rcases (pbc_mem_iff s code).mp h with h' | h' | h' | h' | h' | h' | h' <;>
    · rw [h'.1]
      unfold codeVocab
      simp

/-- Each vocabulary code is already normalized. -/
theorem codeVocab_normalized (code : PyStr) (h : code ∈ codeVocab) :
    normalize_code code = code := by
  simp only [codeVocab, List.mem_cons, List.not_mem_nil, or_false] at h
  rcases h with h | h | h | h | h | h | h <;> (rw [h]; decide)

/-- The vocabulary contains no empty code. -/
theorem codeVocab_ne_nil (code : PyStr) (h : code ∈ codeVocab) : code ≠ [] := by
  simp only [codeVocab, List.mem_cons, List.not_mem_nil, or_false] at h
  rcases h with h | h | h | h | h | h | h <;> (rw [h]; decide)

/-! ### Non-emptiness of rendered values -/

/-- The fueled digit renderer never returns the empty string. -/
theorem natDigsAux_ne_nil (fuel : Nat) : ∀ (n : Nat) (acc : PyStr),
    natDigsAux fuel n acc ≠ [] := by
  induction fuel with
  | zero => intro n acc; simp [natDigsAux]
  | succ f ih =>
    intro n acc
    unfold natDigsAux
    split_ifs
    · simp
    · exact ih _ _

/-- Decimal digit strings are never empty. -/
theorem natDigs_ne_nil (n : Nat) : natDigs n ≠ [] := natDigsAux_ne_nil n n []

/-- Integer renderings are never empty. -/
theorem intStr_ne_nil (i : Int) : intStr i ≠ [] := by
  unfold intStr
  split_ifs
  · simp
  · exact natDigs_ne_nil _

/-- Date renderings are never empty. -/
theorem dateRepr_ne_nil (d m y : Nat) : dateRepr d m y ≠ [] := by
  unfold dateRepr
  intro h
  rcases List.append_eq_nil.mp h with ⟨h1, _⟩
  rcases List.append_eq_nil.mp h1 with ⟨h2, _⟩
  rcases List.append_eq_nil.mp h2 with ⟨h3, _⟩
  rcases List.append_eq_nil.mp h3 with ⟨h4, _⟩
  exact natDigs_ne_nil y h4

/-- The `str()` rendering of a truthy cell is never empty. -/
theorem pyStrC_ne_nil (c : Cell) (h : pyTruthy c = true) : pyStrC c ≠ [] := by
  cases c with
  | blank => simp [pyTruthy] at h
  | str s =>
    have : ¬s.isEmpty := by simpa [pyTruthy] using h
    simpa [pyStrC, List.isEmpty_iff] using this
  | int n => exact intStr_ne_nil n
  | float t f =>
    show intStr t ++ [46] ++ f ≠ []
    intro hh
    rcases List.append_eq_nil.mp hh with ⟨h1, _⟩
    rcases List.append_eq_nil.mp h1 with ⟨h2, _⟩
    exact intStr_ne_nil t h2
  | date d m y => exact dateRepr_ne_nil d m y

/-- The personal-log file-number canonicalization of a truthy cell is never
empty. -/
theorem dossierStrC_ne_nil (c : Cell) (h : pyTruthy c = true) : dossierStrC c ≠ [] := by
  cases c with
  | float t f => exact intStr_ne_nil t
  | blank => simp [pyTruthy] at h
  | str s => exact pyStrC_ne_nil _ h
  | int n => exact pyStrC_ne_nil _ h
  | date d m y => exact pyStrC_ne_nil _ h

/-! ### Personal-log record invariants -/

/-- The invariant of every record the personal-log extractor emits: non-empty
file number, nonzero day, vocabulary code, personal origin. -/
def goodPRec (r : Rec) : Prop :=
  r.dossier ≠ [] ∧ r.date ≠ 0 ∧ r.code ∈ codeVocab ∧ r.source = lit "MA_FACTURATION"

/-- A truthy carry-forward day is a nonzero day. -/
theorem curTruthy_getD (cur : Option Nat) (h : curTruthy cur = true) : cur.getD 0 ≠ 0 := by
  cases cur with
  | none => simp [curTruthy] at h
  | some n => simpa [curTruthy] using h

/-- One personal-log step preserves the record invariant. -/
theorem pmbStep_good (st : PMB) (row : List Cell) (h : ∀ r ∈ st.recs, goodPRec r) :
    ∀ r ∈ (pmbStep st row).recs, goodPRec r := by
  unfold pmbStep
  dsimp only
  split_ifs with hg
  · intro r hr
    rcases List.mem_append.mp hr with h' | h'
    · exact h r h'
    · rcases List.mem_map.mp h' with ⟨code, hcode, hc⟩
      rw [← hc]
      simp only [Bool.and_eq_true] at hg
      refine ⟨dossierStrC_ne_nil _ hg.1.1.1, curTruthy_getD _ hg.2, ?_, rfl⟩
      have hv := pbc_mem_vocab _ _ hcode
      show normalize_code code ∈ codeVocab
      rw [codeVocab_normalized code hv]
      exact hv
  · exact h

/-- Every record of `parse_my_billing` satisfies the invariant. -/
theorem parse_my_billing_good (t : List (List Cell)) :
    ∀ r ∈ parse_my_billing t, goodPRec r := by
  suffices hgen : ∀ (st : PMB), (∀ r ∈ st.recs, goodPRec r) →
      ∀ r ∈ (t.foldl pmbStep st).recs, goodPRec r by
    exact hgen { current := none, recs := [] } (by simp)
  induction t with
  | nil => intro st h; exact h
  | cons row rest ih =>
    intro st h
    rw [List.foldl_cons]
    exact ih _ (pmbStep_good st row h)

/-! ### Facility-report extractor lemmas -/

/-- A header row is skipped entirely: no state update, no emission. -/
theorem hrStep_header (st : HRB) (row : List Cell) (h : hrHeaderRow row = true) :
    hrStep st row = st := by
  unfold hrStep
  dsimp only
  rw [if_pos h]

/-- On a non-header row with truthy column 0, both carry-forward fields are
assigned: the name from column 0 and the dossier from column 1 (which is
`none` again whenever column 1 is not truthy). -/
theorem hrStep_assigns (st : HRB) (row : List Cell) (h1 : hrHeaderRow row = false)
    (h2 : pyTruthy (cellv row 0) = true) :
    (hrStep st row).current_name = some (normalize_name (pyStrC (cellv row 0)))
      ∧ (hrStep st row).current_dossier = hrDossier (cellv row 1) := by
  unfold hrStep
  dsimp only
  rw [if_neg (by rw [h1]; exact Bool.false_ne_true), if_pos h2]
  split_ifs <;> exact ⟨rfl, rfl⟩

/-- A non-truthy cell gives no dossier. -/
theorem hrDossier_not_truthy (c : Cell) (h : pyTruthy c = false) : hrDossier c = none := by
  unfold hrDossier
  rw [if_neg (by rw [h]; exact Bool.false_ne_true)]

/-- A zero numeric cell (int 0 or float 0.0) is not truthy. -/
theorem pyTruthy_zero (c : Cell)
    (h : c = Cell.int 0 ∨ ∃ f, c = Cell.float 0 f ∧ f.all (fun d => d = 48) = true) :
    pyTruthy c = false := by
  rcases h with h | ⟨f, hf, hall⟩
  · rw [h]; rfl
  · rw [hf]
    simp [pyTruthy, floatZero, hall]

/-- While the carry-forward dossier is undefined, a row that does not supply
both a truthy name cell and a truthy dossier cell leaves it undefined and
emits nothing. -/
theorem hrStep_none_persists (st : HRB) (row : List Cell)
    (h1 : st.current_dossier = none)
    (h2 : ¬(pyTruthy (cellv row 0) = true ∧ pyTruthy (cellv row 1) = true)) :
    (hrStep st row).current_dossier = none ∧ (hrStep st row).recs = st.recs := by
  by_cases hh : hrHeaderRow row = true
  · rw [hrStep_header st row hh]
    exact ⟨h1, rfl⟩
  · unfold hrStep
    dsimp only
    rw [if_neg hh]
    by_cases ht : pyTruthy (cellv row 0) = true
    · have hd : pyTruthy (cellv row 1) = false := by
        cases hgd : pyTruthy (cellv row 1)
        · rfl
        · exact absurd ⟨ht, hgd⟩ h2
      rw [if_pos ht, hrDossier_not_truthy _ hd]
      rw [if_neg (by simp [optTruthy])]
      exact ⟨rfl, rfl⟩
    · rw [if_neg ht, h1]
      rw [if_neg (by simp [optTruthy])]
      exact ⟨h1, rfl⟩

/-- Fields of the records produced by the day-column scan. -/
theorem hrDays_fields (row : List Cell) (dossier nom code : PyStr) (r : Rec)
    (h : r ∈ hrDays row dossier nom code) :
    1 ≤ r.date ∧ r.date ≤ 31 ∧ r.dossier = dossier ∧ r.nom = nom ∧ r.code = code
      ∧ r.source = lit "RAPPORT_HOPITAL" := by
  unfold hrDays at h
  rcases List.mem_filterMap.mp h with ⟨day, hday, hsome⟩
  rcases List.mem_map.mp hday with ⟨i, hi, hdi⟩
  have hrange := List.mem_range.mp hi
  split_ifs at hsome
  · have hr := Option.some_injective _ hsome
    have hdi' : i + 1 = day := hdi
    have hday1 : 1 ≤ day := by omega
    have hday31 : day ≤ 31 := by omega
    rw [← hr]
    exact ⟨hday1, hday31, rfl, rfl, rfl, rfl⟩

/-- A truthy optional dossier is a nonempty string. -/
theorem optTruthy_getD (o : Option PyStr) (h : optTruthy o = true) : o.getD [] ≠ [] := by
  cases o with
  | none => simp [optTruthy] at h
  | some s =>
    have : ¬s.isEmpty := by simpa [optTruthy] using h
    simpa [List.isEmpty_iff] using this

/-- The invariant of every record the facility-report extractor emits:
non-empty file number, day within 1..31, facility origin. -/
def goodHRec (r : Rec) : Prop :=
  r.dossier ≠ [] ∧ 1 ≤ r.date ∧ r.date ≤ 31 ∧ r.source = lit "RAPPORT_HOPITAL"

/-- One facility-report step preserves the record invariant. -/
theorem hrStep_good (st : HRB) (row : List Cell) (h : ∀ r ∈ st.recs, goodHRec r) :
    ∀ r ∈ (hrStep st row).recs, goodHRec r := by
  by_cases hh : hrHeaderRow row = true
  · rw [hrStep_header st row hh]; exact h
  · unfold hrStep
    dsimp only
    rw [if_neg hh]
    by_cases ht : pyTruthy (cellv row 0) = true
    · rw [if_pos ht]
      split_ifs with hg
      · intro r hr
        rcases List.mem_append.mp hr with h' | h'
        · exact h r h'
        · simp only [Bool.and_eq_true] at hg
          rcases hrDays_fields _ _ _ _ _ h' with ⟨ha, hb, hc, _, _, hsrc⟩
          exact ⟨hc ▸ optTruthy_getD _ hg.1, ha, hb, hsrc⟩
      · exact h
    · rw [if_neg ht]
      split_ifs with hg
      · intro r hr
        rcases List.mem_append.mp hr with h' | h'
        · exact h r h'
        · simp only [Bool.and_eq_true] at hg
          rcases hrDays_fields _ _ _ _ _ h' with ⟨ha, hb, hc, _, _, hsrc⟩
          exact ⟨hc ▸ optTruthy_getD _ hg.1, ha, hb, hsrc⟩
      · exact h

/-- Every record of `parse_hospital_report` satisfies the invariant. -/
theorem parse_hospital_report_good (t : List (List Cell)) :
    ∀ r ∈ parse_hospital_report t, goodHRec r := by
  suffices hgen : ∀ (st : HRB), (∀ r ∈ st.recs, goodHRec r) →
      ∀ r ∈ (t.foldl hrStep st).recs, goodHRec r by
    exact hgen { current_name := none, current_dossier := none, recs := [] } (by simp)
  induction t with
  | nil => intro st h; exact h
  | cons row rest ih =>
    intro st h
    rw [List.foldl_cons]
    exact ih _ (hrStep_good st row h)

/-- A personal-log row whose dossier cell is numerically zero emits nothing. -/
theorem pmbStep_zero_dossier (st : PMB) (row : List Cell)
    (h : cellv row 1 = Cell.int 0
      ∨ ∃ f, cellv row 1 = Cell.float 0 f ∧ f.all (fun d => d = 48) = true) :
    (pmbStep st row).recs = st.recs := by
  have hz : pyTruthy (cellv row 1) = false := pyTruthy_zero _ h
  unfold pmbStep
  dsimp only
  rw [hz]
  simp

/-! ### Shared example records and tables (used by witnesses) -/

/-- Personal-log example record (spec section 8 end-to-end scenario). -/
def exR1 : Rec :=
  { date := 5, dossier := lit "101", nom := lit "MARTIN", code := lit "K-1",
    source := lit "MA_FACTURATION" }

/-- Facility example record matching `exR1` by key. -/
def exR2 : Rec :=
  { date := 5, dossier := lit "101", nom := lit "MARTIN", code := lit "K-1",
    source := lit "RAPPORT_HOPITAL" }

/-- Facility example record with no personal counterpart. -/
def exR3 : Rec :=
  { date := 6, dossier := lit "101", nom := lit "MARTIN", code := lit "M 6",
    source := lit "RAPPORT_HOPITAL" }

/-! ### Claim theorems -/

/-- C1: `compare_records` builds one last-write-wins key-to-record mapping per
side and partitions: `matched` holds the personal-side record of each key
bound on both sides, `personalOnly` the personal-side records with keys
unbound on the facility side, `facilityOnly` the facility-side records with
keys unbound on the personal side; the key sets of matched plus personalOnly
are exactly the distinct personal keys, and matched plus facilityOnly exactly
the distinct facility keys. -/
theorem claim_C1_reconciler_partition (my hosp : List Rec) :
    (∀ r ∈ (compare_records my hosp).1,
        r ∈ my ∧ (dlookup (buildDict hosp) (make_key r)).isSome = true)
    ∧ (∀ r ∈ (compare_records my hosp).2.1,
        r ∈ my ∧ (dlookup (buildDict hosp) (make_key r)).isSome = false)
    ∧ (∀ r ∈ (compare_records my hosp).2.2,
        r ∈ hosp ∧ (dlookup (buildDict my) (make_key r)).isSome = false)
    ∧ (∀ k : RKey, k ∈ (compare_records my hosp).1.map make_key
        ↔ (k ∈ my.map make_key ∧ k ∈ hosp.map make_key))
    ∧ (∀ k : RKey, (k ∈ (compare_records my hosp).1.map make_key
          ∨ k ∈ (compare_records my hosp).2.1.map make_key)
        ↔ k ∈ my.map make_key)
    ∧ (∀ k : RKey, (k ∈ (compare_records my hosp).1.map make_key
          ∨ k ∈ (compare_records my hosp).2.2.map make_key)
        ↔ k ∈ hosp.map make_key) := by
  refine ⟨?_, ?_, ?_, matched_keys_iff my hosp, my_keys_split my hosp,
    hosp_keys_split my hosp⟩
  · intro r hr
    rcases (mem_filterpart (buildDict my) _ r).mp hr with ⟨p, hm, hp, hr2⟩
    rcases mem_buildDict my p hm with ⟨hk, hmem⟩
    refine ⟨hr2 ▸ hmem, ?_⟩
    rw [← hr2, ← hk]
    exact hp
  · intro r hr
    rcases (mem_filterpart (buildDict my) _ r).mp hr with ⟨p, hm, hp, hr2⟩
    rcases mem_buildDict my p hm with ⟨hk, hmem⟩
    refine ⟨hr2 ▸ hmem, ?_⟩
    rw [← hr2, ← hk]
    simpa using hp
  · intro r hr
    rcases (mem_filterpart (buildDict hosp) _ r).mp hr with ⟨p, hm, hp, hr2⟩
    rcases mem_buildDict hosp p hm with ⟨hk, hmem⟩
    refine ⟨hr2 ▸ hmem, ?_⟩
    rw [← hr2, ← hk]
    simpa using hp

/-- Witness for C1 on the spec's end-to-end scenario. -/
theorem claim_C1_reconciler_partition_witness :
    exR1 ∈ [exR1] ∧ (dlookup (buildDict [exR2, exR3]) (make_key exR1)).isSome = true :=
  (claim_C1_reconciler_partition [exR1] [exR2, exR3]).1 exR1 (by decide)

/-- The spec-side condition that no marker of the vocabulary occurs in the
trimmed uppercased text. -/
abbrev noMarker (s : PyStr) : Prop :=
  let t := upperL (stripL s)
  infixOf (lit "M24") t = false ∧ infixOf (lit "M6") t = false
    ∧ infixOf (lit "M 6") t = false ∧ infixOf (lit "K-1") t = false
    ∧ infixOf (lit "RECOND") t = false ∧ infixOf (lit "K3/4") t = false
    ∧ infixOf (lit "K20") t = false ∧ infixOf (lit "K15") t = false

/-- C2: membership in `parse_billing_code`'s output is exactly the presence of
one of the seven markers in the trimmed, uppercased input — independent of
order and surrounding text — and text matching no marker yields the empty
list. -/
theorem claim_C2_decomposition (s : PyStr) :
    (∀ code, code ∈ parse_billing_code s ↔ specCodeDue s code)
    ∧ (noMarker s → parse_billing_code s = []) := by
  refine ⟨fun code => pbc_mem_iff s code, ?_⟩
  intro hnm
  rcases hnm with ⟨h1, h2, h3, h4, h5, h6, h7, h8⟩
  rw [List.eq_nil_iff_forall_not_mem]
  intro code hcode
  rcases (pbc_mem_iff s code).mp hcode with h | h | h | h | h | h | h
  · rw [h1] at h; exact Bool.false_ne_true h.2
  · rcases h.2 with h' | h'
    · rw [h2] at h'; exact Bool.false_ne_true h'
    · rw [h3] at h'; exact Bool.false_ne_true h'
  · rw [h4] at h; exact Bool.false_ne_true h.2
  · rw [h5] at h; exact Bool.false_ne_true h.2
  · rw [h6] at h; exact Bool.false_ne_true h.2
  · rw [h7] at h; exact Bool.false_ne_true h.2
  · rw [h8] at h; exact Bool.false_ne_true h.2

/-- Witness for C2: a composite cell yields both codes, an unmatched cell
yields none. -/
theorem claim_C2_decomposition_witness :
    lit "RECOND" ∈ parse_billing_code (lit "K-1 + RECOND")
      ∧ parse_billing_code (lit "massage") = [] :=
  ⟨((claim_C2_decomposition (lit "K-1 + RECOND")).1 (lit "RECOND")).mpr (by decide),
    (claim_C2_decomposition (lit "massage")).2 (by decide)⟩

/-- C3: the carry-forward day is updated only by date-like column-0 values
(native dates, or strings with a matching date prefix); other rows keep it;
rows after a dated row with blank date cells inherit its day; and a table with
no date-like marker emits nothing. -/
theorem claim_C3_carry_forward :
    (∀ (cur : Option Nat) (c : Cell), ¬isDateLike c → pmbDate cur c = cur)
    ∧ (∀ (cur : Option Nat) (d m y : Nat), pmbDate cur (Cell.date d m y) = some d)
    ∧ (∀ (cur : Option Nat) (s : PyStr) (d : Nat), dateRegexDay s = some d →
        pmbDate cur (Cell.str s) = some d)
    ∧ (∀ (cur : Option Nat) (r0 : List Cell) (rs : List (List Cell)) (d : Nat),
        pmbDate cur (cellv r0 0) = some d →
        (∀ row ∈ rs, cellv row 0 = Cell.blank) →
        ∀ r ∈ ((r0 :: rs).foldl pmbStep { current := cur, recs := [] }).recs, r.date = d)
    ∧ (∀ t : List (List Cell), (∀ row ∈ t, ¬isDateLike (cellv row 0)) →
        parse_my_billing t = []) := by
  refine ⟨pmbDate_of_not_dateLike, pmbDate_date, pmbDate_str, ?_, ?_⟩
  · intro cur r0 rs d h0 hrs
    rw [List.foldl_cons]
    have hstep := pmbStep_new_recs { current := cur, recs := [] } r0
    rw [h0] at hstep
    have hstate : pmbStep { current := cur, recs := [] } r0
        = { current := some d, recs := (pmbStep { current := cur, recs := [] } r0).recs } := by
      cases hs : pmbStep { current := cur, recs := [] } r0 with
      | mk c recs =>
        have := hstep.1
        rw [hs] at this
        simp only at this
        rw [this]
    rw [hstate]
    exact (pmb_fold_blank rs _ d hrs (fun r hr => by
      rcases hstep.2 r hr with h' | h'
      · simp at h'
      · simpa using h')).2
  · intro t ht
    show (t.foldl pmbStep { current := none, recs := [] }).recs = []
    rw [pmb_fold_nodate t ht []]

/-- Witness for C3: a dated row followed by a blank-date row with valid cells
yields a record carrying the dated row's day, and a table with no date marker
yields nothing. -/
theorem claim_C3_carry_forward_witness :
    ({ date := 5, dossier := lit "7", nom := lit "X", code := lit "K-1",
        source := lit "MA_FACTURATION" } : Rec).date = 5
    ∧ parse_my_billing [[Cell.blank, Cell.int 7, Cell.str (lit "X"), Cell.str (lit "K-1")]] = [] := by
  constructor
  · exact (claim_C3_carry_forward.2.2.2.1 none
      [Cell.str (lit "5/3/2024"), Cell.blank, Cell.blank, Cell.blank]
      [[Cell.blank, Cell.int 7, Cell.str (lit "X"), Cell.str (lit "K-1")]] 5
      (by decide) (by decide))
      { date := 5, dossier := lit "7", nom := lit "X", code := lit "K-1",
        source := lit "MA_FACTURATION" }
      (by decide)
  · exact claim_C3_carry_forward.2.2.2.2
      [[Cell.blank, Cell.int 7, Cell.str (lit "X"), Cell.str (lit "K-1")]]
      (by decide)

/-- Facility-report example rows for C4: a patient row binding dossier 7, then
a row with a non-blank name, a blank dossier cell, a code, and a day-1 mark. -/
def exC4Row1 : List Cell := [Cell.str (lit "ALICE"), Cell.int 7, Cell.blank]

/-- Second C4 example row (non-blank column 0, blank column 1). -/
def exC4Row2 : List Cell :=
  [Cell.str (lit "BOB"), Cell.blank, Cell.str (lit "K-1"),
   Cell.blank, Cell.blank, Cell.blank, Cell.str (lit "x")]

/-- A facility-report loop state with both carry-forward fields defined. -/
def exHState : HRB :=
  { current_name := some (lit "ANN"), current_dossier := some (lit "7"), recs := [] }

/-- C4 counterexample: on a row with non-blank column 0 and blank column 1 the
carried-forward file number is cleared, not retained, so the code row emits
nothing — the claim's carried-forward emission does not happen. -/
theorem claim_C4_counterexample :
    (hrStep exHState exC4Row2).current_dossier = none
      ∧ parse_hospital_report [exC4Row1, exC4Row2] = [] := by decide

/-- C4 amended: when column 0 is non-blank (and the row is no header),
`currentName` is set from column 0 and `currentFileNumber` is reassigned from
column 1 — to its canonicalized value when column 1 is truthy, and to
undefined (cleared) when it is not. -/
theorem claim_C4_amended (st : HRB) (row : List Cell) (h1 : hrHeaderRow row = false)
    (h2 : pyTruthy (cellv row 0) = true) :
    (hrStep st row).current_name = some (normalize_name (pyStrC (cellv row 0)))
      ∧ (hrStep st row).current_dossier = hrDossier (cellv row 1)
      ∧ (pyTruthy (cellv row 1) = false → (hrStep st row).current_dossier = none) := by
  refine ⟨(hrStep_assigns st row h1 h2).1, (hrStep_assigns st row h1 h2).2, ?_⟩
  intro hz
  rw [(hrStep_assigns st row h1 h2).2, hrDossier_not_truthy _ hz]

/-- Witness for the amended C4 on the example row. -/
theorem claim_C4_amended_witness :
    (hrStep exHState exC4Row2).current_name
        = some (normalize_name (pyStrC (cellv exC4Row2 0)))
      ∧ (hrStep exHState exC4Row2).current_dossier = hrDossier (cellv exC4Row2 1) :=
  ⟨(claim_C4_amended exHState exC4Row2 (by decide) (by decide)).1,
    (claim_C4_amended exHState exC4Row2 (by decide) (by decide)).2.1⟩

/-- C5: the reconciliation key is exactly (fileNumber, code, day) — two record
lists with pointwise-equal keys (differing only in names or origins) produce
no personalOnly and no facilityOnly records, and the matched keys are exactly
the distinct personal keys. -/
theorem claim_C5_key_excludes_name (my hosp : List Rec)
    (h : my.map make_key = hosp.map make_key) :
    (compare_records my hosp).2.1 = [] ∧ (compare_records my hosp).2.2 = []
      ∧ (∀ k : RKey, k ∈ (compare_records my hosp).1.map make_key
          ↔ k ∈ my.map make_key) := by
  have hMy : ∀ p ∈ buildDict my, (dlookup (buildDict hosp) p.1).isSome = true := by
    intro p hp
    rcases mem_buildDict my p hp with ⟨hk, hmem⟩
    rw [buildDict_isSome, ← h, hk]
    exact List.mem_map_of_mem make_key hmem
  have hHosp : ∀ p ∈ buildDict hosp, (dlookup (buildDict my) p.1).isSome = true := by
    intro p hp
    rcases mem_buildDict hosp p hp with ⟨hk, hmem⟩
    rw [buildDict_isSome, h, hk]
    exact List.mem_map_of_mem make_key hmem
  refine ⟨?_, ?_, ?_⟩
  · show ((buildDict my).filter
        (fun p => !(dlookup (buildDict hosp) p.1).isSome)).map Prod.snd = []
    rw [List.filter_eq_nil.mpr (fun p hp => by simp [hMy p hp])]
    rfl
  · show ((buildDict hosp).filter
        (fun p => !(dlookup (buildDict my) p.1).isSome)).map Prod.snd = []
    rw [List.filter_eq_nil.mpr (fun p hp => by simp [hHosp p hp])]
    rfl
  · intro k
    rw [matched_keys_iff]
    constructor
    · exact fun hk => hk.1
    · intro hk
      exact ⟨hk, by rw [← h]; exact hk⟩

/-- Personal record of the spec's key-exclusivity example. -/
def exDupontP : Rec :=
  { date := 5, dossier := lit "102", nom := lit "DUPONT", code := lit "K-1",
    source := lit "MA_FACTURATION" }

/-- Facility record of the spec's key-exclusivity example, same key but a
differently formatted name. -/
def exDupontH : Rec :=
  { date := 5, dossier := lit "102", nom := lit "DUPONT JEAN", code := lit "K-1",
    source := lit "RAPPORT_HOPITAL" }

/-- Witness for C5 on the Dupont example. -/
theorem claim_C5_key_excludes_name_witness :
    (compare_records [exDupontP] [exDupontH]).2.1 = []
      ∧ (compare_records [exDupontP] [exDupontH]).2.2 = [] :=
  ⟨(claim_C5_key_excludes_name [exDupontP] [exDupontH] (by decide)).1,
    (claim_C5_key_excludes_name [exDupontP] [exDupontH] (by decide)).2.1⟩

/-- Personal-log table for the C6 counterexample: string date with day 45, a
name cell that normalizes to the empty string. -/
def exC6TableP : List (List Cell) :=
  [[Cell.str (lit "45/1/2024"), Cell.int 7, Cell.str (lit "(A)"), Cell.str (lit "K-1")]]

/-- The record the personal-log extractor emits from `exC6TableP`. -/
def exC6RecP : Rec :=
  { date := 45, dossier := lit "7", nom := [], code := lit "K-1",
    source := lit "MA_FACTURATION" }

/-- Facility table for the C6 counterexample: a whitespace-only code cell that
normalizes to the empty string, with a day-1 mark. -/
def exC6TableH : List (List Cell) :=
  [[Cell.str (lit "ANN"), Cell.int 7, Cell.str (lit " "),
    Cell.blank, Cell.blank, Cell.blank, Cell.str (lit "x")]]

/-- The record the facility extractor emits from `exC6TableH`. -/
def exC6RecH : Rec :=
  { date := 1, dossier := lit "7", nom := lit "ANN", code := [],
    source := lit "RAPPORT_HOPITAL" }

/-- C6 counterexample: the extractors do emit records with an empty
patientName, a day outside 1..31, and an empty code — the suppression claim
checks raw cells, not normalized field values. -/
theorem claim_C6_counterexample :
    parse_my_billing exC6TableP = [exC6RecP] ∧ exC6RecP.nom = [] ∧ 31 < exC6RecP.date
      ∧ parse_hospital_report exC6TableH = [exC6RecH] ∧ exC6RecH.code = [] := by decide

/-- C6 amended: emission is suppressed until the guarding cells are truthy;
every emitted record has a non-empty fileNumber; a personal-log record's day
is nonzero and its code is a (non-empty) vocabulary code; a facility record's
day lies in 1..31.  PatientName (both sides) and the facility-side code are
normalized cell text and may be empty, and a personal-log string date can set
a day outside 1..31. -/
theorem claim_C6_amended (t : List (List Cell)) :
    (∀ r ∈ parse_my_billing t,
        r.dossier ≠ [] ∧ r.date ≠ 0 ∧ r.code ∈ codeVocab ∧ r.code ≠ [])
      ∧ (∀ r ∈ parse_hospital_report t,
          r.dossier ≠ [] ∧ 1 ≤ r.date ∧ r.date ≤ 31) := by
  constructor
  · intro r hr
    rcases parse_my_billing_good t r hr with ⟨h1, h2, h3, _⟩
    exact ⟨h1, h2, h3, codeVocab_ne_nil _ h3⟩
  · intro r hr
    rcases parse_hospital_report_good t r hr with ⟨h1, h2, h3, _⟩
    exact ⟨h1, h2, h3⟩

/-- Witness for the amended C6 on the counterexample table. -/
theorem claim_C6_amended_witness :
    exC6RecP.dossier ≠ [] ∧ exC6RecP.date ≠ 0 ∧ exC6RecP.code ∈ codeVocab
      ∧ exC6RecP.code ≠ [] :=
  (claim_C6_amended exC6TableP).1 exC6RecP (by decide)

/-- C7 counterexample: `normalize_name` is not idempotent — removing the
commas of ", a" exposes a leading space that only a second pass strips. -/
theorem claim_C7_counterexample :
    normalize_name (normalize_name (lit ", a")) ≠ normalize_name (lit ", a") := by decide

/-- C7 amended: `normalize_code` is idempotent for every string;
`normalize_name` is not idempotent in general. -/
theorem claim_C7_amended (x : PyStr) :
    normalize_code (normalize_code x) = normalize_code x := normalize_code_idem x

/-- C8: a facility-report row recognized as a header (by its name, dossier, or
code column) is skipped entirely — no record, no carry-forward update. -/
theorem claim_C8_header_skip (st : HRB) (row : List Cell)
    (h : hrHeaderRow row = true) : hrStep st row = st :=
  hrStep_header st row h

/-- A header row whose other columns are non-blank. -/
def exHeaderRow : List Cell :=
  [Cell.str (lit "NOM PATIENT"), Cell.int 7, Cell.str (lit "K-1")]

/-- Witness for C8 on a "NOM PATIENT" row with non-blank columns 1 and 2. -/
theorem claim_C8_header_skip_witness : hrStep exHState exHeaderRow = exHState :=
  claim_C8_header_skip exHState exHeaderRow (by decide)

/-- C9: the embedded normalizers, decomposer and reconciler are total Lean
functions; on all-whitespace (in particular empty) input both normalizers
return the empty string rather than failing. -/
theorem claim_C9_totality (l : PyStr) (h : ∀ c ∈ l, pySpace c = true) :
    normalize_code l = [] ∧ normalize_name l = [] :=
  normalizers_ws_only l h

/-- Witness for C9 on a whitespace-only string. -/
theorem claim_C9_totality_witness :
    normalize_code (lit "   ") = [] ∧ normalize_name (lit "   ") = [] :=
  claim_C9_totality (lit "   ") (by decide)

/-- C10: a numerically zero file-number cell behaves as absent — the
personal-log extractor emits nothing from such a row; the facility extractor
sets the carry-forward file number to undefined on a named row with a zero
dossier cell; and while undefined it stays undefined (emitting nothing) until
a row supplies both a truthy name and a truthy file-number cell. -/
theorem claim_C10_zero_dossier :
    (∀ (st : PMB) (row : List Cell),
        (cellv row 1 = Cell.int 0
          ∨ ∃ f, cellv row 1 = Cell.float 0 f ∧ f.all (fun d => d = 48) = true) →
        (pmbStep st row).recs = st.recs)
    ∧ (∀ (st : HRB) (row : List Cell), hrHeaderRow row = false →
        pyTruthy (cellv row 0) = true →
        (cellv row 1 = Cell.int 0
          ∨ ∃ f, cellv row 1 = Cell.float 0 f ∧ f.all (fun d => d = 48) = true) →
        (hrStep st row).current_dossier = none)
    ∧ (∀ (st : HRB) (row : List Cell), st.current_dossier = none →
        ¬(pyTruthy (cellv row 0) = true ∧ pyTruthy (cellv row 1) = true) →
        (hrStep st row).current_dossier = none ∧ (hrStep st row).recs = st.recs) := by
  refine ⟨pmbStep_zero_dossier, ?_, hrStep_none_persists⟩
  intro st row hh ht hz
  rw [(hrStep_assigns st row hh ht).2, hrDossier_not_truthy _ (pyTruthy_zero _ hz)]

/-- A facility row with a name and an integer-zero dossier cell. -/
def exZeroRow : List Cell :=
  [Cell.str (lit "ANN"), Cell.int 0, Cell.str (lit "K-1"),
   Cell.blank, Cell.blank, Cell.blank, Cell.str (lit "x")]

/-- Witness for C10: zero dossier suppresses personal-log emission and clears
the facility carry-forward. -/
theorem claim_C10_zero_dossier_witness :
    (pmbStep { current := some 5, recs := [] }
        [Cell.blank, Cell.int 0, Cell.str (lit "X"), Cell.str (lit "K-1")]).recs = []
      ∧ (hrStep exHState exZeroRow).current_dossier = none :=
  ⟨claim_C10_zero_dossier.1 { current := some 5, recs := [] }
      [Cell.blank, Cell.int 0, Cell.str (lit "X"), Cell.str (lit "K-1")]
      (Or.inl (by decide)),
    claim_C10_zero_dossier.2.1 exHState exZeroRow (by decide) (by decide)
      (Or.inl (by decide))⟩

end Billing
